import Mathlib

/-!
Verification of the justcache storage engine, promise map, HTTP admission
handlers and rendezvous router, shallowly embedded from the Go sources.

Byte strings (Go `string` / `[]byte`) are lists of naturals; `time.Time` and
`time.Duration` are integers counting nanoseconds.  The `uint64` byte counters
are naturals: the storage invariant keeps `memoryUsedBytes` at the exact sum of
entry sizes (bounded by `maxMemory`), so two's-complement wraparound never
arises on the states the theorems quantify over.  The Go map and the intrusive
LRU list of `InMemoryStorage` reference the same entries and share lifetime
(storage.go keeps them in sync under one mutex), so both are embedded as a
single list of entries ordered from LRU head to MRU tail; map lookup is lookup
by key in that list.
-/

/-- Byte strings: Go `string` and `[]byte` values. -/
abbrev Bytes := List Nat

/-- Constant `constants.MaxKeySizeBytes`. -/
def maxKeySizeBytes : Nat := 1024

/-- Constant `constants.MaxValueSizeBytes` (64 MiB). -/
def maxValueSizeBytes : Nat := 64 * 1024 * 1024

/-- Errors declared in storage.go. -/
inductive StorageErr where
  | keyNotFound
  | deleteKeyNotFound
  | memoryLimitExceeded
  | keyTooLong
  | keyTooShort
  | objectTooLarge
  | valueTooShort
  | invalidTTL
deriving DecidableEq, Repr

/-- CachedObject from list.go: a cached key-value pair with expiration.
The intrusive `prev`/`next` pointers are represented by the position of the
object in the storage's entry list. -/
structure CachedObject where
  key : Bytes
  value : Bytes
  expirationTime : Int
deriving DecidableEq, Repr

/-- CachedObject.GetBytesUsed: total bytes used by the key and value. -/
def CachedObject.getBytesUsed (c : CachedObject) : Nat :=
  c.key.length + c.value.length

/-- InMemoryStorage from storage.go.  `entries` is the LRU list from head
(least recently used) to tail (most recently used); the `store` map holds
exactly the same entries, so lookup is by key in `entries`. -/
structure InMemoryStorage where
  memoryUsedBytes : Nat
  maxMemory : Nat
  entries : List CachedObject
deriving DecidableEq, Repr

/-- NewInMemoryStorage: fresh store with the given memory cap. -/
def NewInMemoryStorage (maxMemory : Nat) : InMemoryStorage :=
  { memoryUsedBytes := 0, maxMemory := maxMemory, entries := [] }

/-- validateKey from storage.go. -/
def validateKey (key : Bytes) : Option StorageErr :=
  if key.length = 0 then some .keyTooShort
  else if key.length > maxKeySizeBytes then some .keyTooLong
  else none

/-- Lookup `s.store[key]`: the entry with the given key. -/
def findEntry (l : List CachedObject) (key : Bytes) : Option CachedObject :=
  l.find? (fun e => e.key == key)

/-- Removal of the (unique, on reachable states) entry with the given key from
the LRU list; `lruList.remove` on the node found in the map. -/
def removeKey (l : List CachedObject) (key : Bytes) : List CachedObject :=
  match l with
  | [] => []
  | e :: es => if e.key == key then es else e :: removeKey es key

/-- deleteUnlocked from storage.go: remove the key from the map and the LRU
list and subtract its bytes from the counter; `ErrDeleteKeyNotFound` when the
key is absent. -/
def deleteUnlocked (s : InMemoryStorage) (key : Bytes) :
    Option StorageErr × InMemoryStorage :=
  match findEntry s.entries key with
  | none => (some .deleteKeyNotFound, s)
  | some node =>
      (none, { s with entries := removeKey s.entries key,
                      memoryUsedBytes := s.memoryUsedBytes - node.getBytesUsed })

/-- lruList.moveToTail on the node holding `key`: no-op when the node is
already the tail (in Go a pointer comparison with `l.tail`; with unique keys
comparing the tail's key is the same test), otherwise remove then append. -/
def moveToTail (s : InMemoryStorage) (node : CachedObject) : InMemoryStorage :=
  match s.entries.getLast? with
  | some last =>
      if last.key == node.key then s
      else { s with entries := removeKey s.entries node.key ++ [node] }
  | none => s

/-- Snapshot view of a hit returned by the storage engine's Get.
Modelled from the spec: the `internal/storage` file defining `CacheEntry` is
not under src/; §4.3 says the snapshot exposes the value bytes, the byte size
and the current remaining TTL. -/
structure CacheEntry where
  value : Bytes
  size : Nat
  remainingTTL : Int
deriving DecidableEq, Repr

/-- Get from storage.go, producing the snapshot view: validate the key, miss
on absence, lazily delete and miss when `expirationTime` is before `now`,
otherwise move the node to the MRU tail and return it. -/
def InMemoryStorage.getEntry (s : InMemoryStorage) (key : Bytes) (now : Int) :
    Except StorageErr CacheEntry × InMemoryStorage :=
  match validateKey key with
  | some e => (.error e, s)
  | none =>
    match findEntry s.entries key with
    | none => (.error .keyNotFound, s)
    | some node =>
        if node.expirationTime < now then
          (.error .keyNotFound, (deleteUnlocked s key).2)
        else
          (.ok ⟨node.value, node.value.length, node.expirationTime - now⟩,
           moveToTail s node)

/-- Get from storage.go as published by the `LocalStorage` interface in src:
the value bytes of the snapshot. -/
def InMemoryStorage.Get (s : InMemoryStorage) (key : Bytes) (now : Int) :
    Except StorageErr Bytes × InMemoryStorage :=
  let r := s.getEntry key now
  (r.1.map (fun e => e.value), r.2)

/-- Loop body of limitedTtlCleanup: walk the saved head-to-tail order, delete
each expired node, and stop once the freed bytes reach the minimum. -/
def ttlCleanupLoop (s : InMemoryStorage) (visit : List CachedObject)
    (freed minReclaim : Nat) (now : Int) : Nat × InMemoryStorage :=
  match visit with
  | [] => (freed, s)
  | ptr :: rest =>
      if ptr.expirationTime < now then
        let freed2 := freed + ptr.getBytesUsed
        let s2 := (deleteUnlocked s ptr.key).2
        if minReclaim ≤ freed2 then (freed2, s2)
        else ttlCleanupLoop s2 rest freed2 minReclaim now
      else ttlCleanupLoop s rest freed minReclaim now

/-- limitedTtlCleanup from storage.go. -/
def InMemoryStorage.limitedTtlCleanup (s : InMemoryStorage)
    (minReclaim : Nat) (now : Int) : Nat × InMemoryStorage :=
  ttlCleanupLoop s s.entries 0 minReclaim now

/-- Loop body of limitedEviction: delete from the LRU head until the freed
bytes reach the minimum or the list is exhausted. -/
def evictionLoop (s : InMemoryStorage) (visit : List CachedObject)
    (freed minReclaim : Nat) : Nat × InMemoryStorage :=
  match visit with
  | [] => (freed, s)
  | ptr :: rest =>
      let freed2 := freed + ptr.getBytesUsed
      let s2 := (deleteUnlocked s ptr.key).2
      if minReclaim ≤ freed2 then (freed2, s2)
      else evictionLoop s2 rest freed2 minReclaim

/-- limitedEviction from storage.go. -/
def InMemoryStorage.limitedEviction (s : InMemoryStorage) (minReclaim : Nat) :
    Nat × InMemoryStorage :=
  evictionLoop s s.entries 0 minReclaim

/-- Size in the store of the entry under `key`, 0 when absent: the
`existingObjectSize` resolution step of Put. -/
def existingSize (s : InMemoryStorage) (key : Bytes) : Nat :=
  match findEntry s.entries key with
  | some ex => ex.getBytesUsed
  | none => 0

/-- Final memory check and insertion at the end of Put (storage.go lines
132-150): `newObjectSize` there is always `len(key) + len(value)`, which is
also the inserted object's `GetBytesUsed`. -/
def putInsert (s2 : InMemoryStorage) (key value : Bytes) (ttl now : Int) :
    Option StorageErr × InMemoryStorage :=
  if s2.maxMemory < s2.memoryUsedBytes + (key.length + value.length) then
    (some .memoryLimitExceeded, s2)
  else
    (none, { s2 with
      entries := s2.entries ++ [⟨key, value, now + ttl⟩],
      memoryUsedBytes := s2.memoryUsedBytes +
        CachedObject.getBytesUsed ⟨key, value, now + ttl⟩ })

/-- Tail of Put after the eviction block (storage.go lines 127-150): delete
the pre-existing entry if its resolved size is positive, then run the final
check and insertion. -/
def putFinish (s : InMemoryStorage) (key value : Bytes) (ttl now : Int)
    (oldSize : Nat) : Option StorageErr × InMemoryStorage :=
  putInsert (if 0 < oldSize then (deleteUnlocked s key).2 else s)
    key value ttl now

/-- Net additional memory Put needs: `newObjectSize - existingObjectSize`
clamped at zero (storage.go lines 95-105). -/
def putNeeded (s : InMemoryStorage) (key value : Bytes) : Nat :=
  if existingSize s key < key.length + value.length
  then key.length + value.length - existingSize s key else 0

/-- Eviction block of Put (storage.go lines 108-113): limited TTL cleanup
followed, when still short, by limited LRU eviction; yields the total freed
bytes and the state after the deletions. -/
def evictPhase (s : InMemoryStorage) (needed : Nat) (now : Int) :
    Nat × InMemoryStorage :=
  if (s.limitedTtlCleanup needed now).1 < needed then
    ((s.limitedTtlCleanup needed now).1 +
       ((s.limitedTtlCleanup needed now).2.limitedEviction
         (needed - (s.limitedTtlCleanup needed now).1)).1,
     ((s.limitedTtlCleanup needed now).2.limitedEviction
       (needed - (s.limitedTtlCleanup needed now).1)).2)
  else s.limitedTtlCleanup needed now

/-- Put from storage.go: validate key, TTL and value, reject objects larger
than the cap, then account replacement-aware memory need; when short, run the
limited TTL cleanup then limited LRU eviction, fail if still short, and
re-resolve the existing entry's size (0 if it was itself evicted). -/
def InMemoryStorage.Put (s : InMemoryStorage) (key value : Bytes)
    (ttl now : Int) : Option StorageErr × InMemoryStorage :=
  match validateKey key with
  | some e => (some e, s)
  | none =>
    if ttl ≤ 0 then (some .invalidTTL, s)
    else if value.length = 0 then (some .valueTooShort, s)
    else if s.maxMemory < key.length + value.length then
      (some .objectTooLarge, s)
    else if s.maxMemory < s.memoryUsedBytes + putNeeded s key value then
      if (evictPhase s (putNeeded s key value) now).1 <
          putNeeded s key value then
        (some .memoryLimitExceeded, (evictPhase s (putNeeded s key value) now).2)
      else
        putFinish (evictPhase s (putNeeded s key value) now).2 key value ttl now
          (existingSize (evictPhase s (putNeeded s key value) now).2 key)
    else
      putFinish s key value ttl now (existingSize s key)

/-- Delete from storage.go. -/
def InMemoryStorage.Delete (s : InMemoryStorage) (key : Bytes) :
    Option StorageErr × InMemoryStorage :=
  match validateKey key with
  | some e => (some e, s)
  | none => deleteUnlocked s key

/-! ## Storage invariant (memory accounting) -/

/-- Total bytes_used over the entries of the store. -/
def entriesSize (l : List CachedObject) : Nat :=
  (l.map CachedObject.getBytesUsed).sum

/-- Well-formedness of a storage state: the byte counter is the exact sum of
entry sizes, it never exceeds the cap, and keys are unique. -/
def WFStore (s : InMemoryStorage) : Prop :=
  s.memoryUsedBytes = entriesSize s.entries ∧
  s.memoryUsedBytes ≤ s.maxMemory ∧
  (s.entries.map CachedObject.key).Nodup

/-- Public storage operations, each tagged with the wall-clock instant at
which it runs. -/
inductive StorageOp where
  | get (key : Bytes) (now : Int)
  | put (key value : Bytes) (ttl now : Int)
  | del (key : Bytes)
deriving DecidableEq, Repr

/-- State reached after one public operation. -/
def execOp (s : InMemoryStorage) (op : StorageOp) : InMemoryStorage :=
  match op with
  | .get key now => (s.Get key now).2
  | .put key value ttl now => (s.Put key value ttl now).2
  | .del key => (s.Delete key).2

/-- State reached after a sequence of public operations on a fresh store. -/
def runOps (maxMemory : Nat) (ops : List StorageOp) : InMemoryStorage :=
  ops.foldl execOp (NewInMemoryStorage maxMemory)

/-! ## Concrete storage states used by the storage claims -/

/-- Store of capacity 20 holding the single 5-byte entry `"a"`, reached by one
Put from a fresh store. -/
def smallStore : InMemoryStorage :=
  ((NewInMemoryStorage 20).Put [97] [1, 1, 1, 1] 3600000000000 0).2

/-- Store of capacity 12 filled by `"a"` (6 bytes, LRU head) then `"b"`
(6 bytes, tail): the setup of storage_test.go's
TestEviction_DeletesKeyBeingUpdated. -/
def twoEntryStore : InMemoryStorage :=
  ((((NewInMemoryStorage 12).Put [97] [1, 1, 1, 1, 1] 3600000000000 0).2).Put
    [98] [2, 2, 2, 2, 2] 3600000000000 1).2

/-- Store of capacity 20 holding one entry `"a"` that expired at instant 5. -/
def expiredStore : InMemoryStorage :=
  ((NewInMemoryStorage 20).Put [97] [1, 1, 1, 1, 1] 5 0).2

/-! ## Promise map (internal/remote, promise file)

Durations and instants are nanosecond integers; `time.Duration.Milliseconds`
and the seconds conversion divide nonnegative values, where Go's truncating
division, Lean's `Int` division and floor division all agree.  The Go map is
embedded as a list of promises with (on reachable states) unique keys;
operations act on the entry whose key matches.  `Get`'s re-check under the
write lock reads the clock again; both reads are modelled at the same
instant `now`. -/

/-- Promise from the promise-map file: an intent to upload a cache value.
`size` is -1 when the x-jc-size header was not given. -/
structure Promise where
  key : Bytes
  size : Int
  createdAt : Int
  expiresAt : Int
deriving DecidableEq, Repr

/-- Constant defaultPromiseTTL (30 s) in nanoseconds. -/
def defaultPromiseTTLns : Int := 30 * 1000000000

/-- Constant defaultTTL of PUT uploads (30 min) in nanoseconds. -/
def defaultTTLns : Int := 30 * 60 * 1000000000

/-- Map lookup `pm.promises[key]`. -/
def pmFind (pm : List Promise) (key : Bytes) : Option Promise :=
  pm.find? (fun p => p.key == key)

/-- Map deletion `delete(pm.promises, key)`. -/
def pmRemove (pm : List Promise) (key : Bytes) : List Promise :=
  match pm with
  | [] => []
  | p :: ps => if p.key == key then ps else p :: pmRemove ps key

/-- PromiseMap.Get: nil when absent; a promise with `expiresAt` after `now`
is returned; an expired one (strictly before `now`) is lazily deleted and nil
returned.  At exact equality both Go time comparisons are false and the
promise is returned unchanged, as in the source. -/
def pmGet (pm : List Promise) (key : Bytes) (now : Int) :
    Option Promise × List Promise :=
  match pmFind pm key with
  | none => (none, pm)
  | some p =>
      if now < p.expiresAt then (some p, pm)
      else if p.expiresAt < now then (none, pmRemove pm key)
      else (some p, pm)

/-- PromiseMap.Create: a nonpositive ttl is replaced by the 30 s default; a
still-valid existing promise rejects the creation; an expired one is replaced. -/
def pmCreate (pm : List Promise) (key : Bytes) (size ttl now : Int) :
    Bool × List Promise :=
  match pmFind pm key with
  | some ex =>
      if now < ex.expiresAt then (false, pm)
      else (true, pmRemove pm key ++
        [⟨key, size, now, now + (if ttl ≤ 0 then defaultPromiseTTLns else ttl)⟩])
  | none =>
      (true, pm ++
        [⟨key, size, now, now + (if ttl ≤ 0 then defaultPromiseTTLns else ttl)⟩])

/-- PromiseMap.Fulfill: unconditional deletion. -/
def pmFulfill (pm : List Promise) (key : Bytes) : List Promise :=
  pmRemove pm key

/-- PromiseMap.RemainingTTL: `max 0 (expiresAt - now)` through Get, 0 when Get
reports nil. -/
def pmRemainingTTL (pm : List Promise) (key : Bytes) (now : Int) :
    Int × List Promise :=
  match (pmGet pm key now).1 with
  | none => (0, (pmGet pm key now).2)
  | some p =>
      (if p.expiresAt - now < 0 then 0 else p.expiresAt - now,
       (pmGet pm key now).2)

/-- Promises of the map that are live (`now < expiresAt`) at an instant: the
observable content of the promise map, since expired entries are deleted
lazily on access. -/
def liveOnly (pm : List Promise) (now : Int) : List Promise :=
  pm.filter (fun p => now < p.expiresAt)

/-! ## HTTP admission handlers (internal/remote/remote.go)

A request header is embedded post-lexing: absent, malformed (ParseInt fails),
or an integer value.  The server's storage is the repository's storage engine
(`InMemoryStorage` above); `CanFit`, whose implementing file is not under
src/, is modelled from the spec (§4.3): `key_len + value_len ≤ memory_cap`.
Transport-level read failures of the PUT body are environment faults outside
the state machine; the embedded handler reads the supplied body in full. -/

/-- Parsed state of an `x-jc-*` integer request header. -/
inductive Hdr where
  | absent
  | malformed
  | val (n : Int)
deriving DecidableEq, Repr

/-- POST (intend) request: x-jc-size, x-jc-promise-ttl (milliseconds) and
x-jc-dryrun headers. -/
structure PostRequest where
  sizeHeader : Hdr
  promiseTTLHeader : Hdr
  dryRun : Bool
deriving DecidableEq, Repr

/-- PUT (upload) request: Content-Length, the body bytes, and the x-jc-ttl
header in milliseconds. -/
structure PutRequest where
  contentLength : Int
  body : Bytes
  ttlHeader : Hdr
deriving DecidableEq, Repr

/-- Response of handlePost: status plus the `x-jc-*` headers it sets.
`okExists` is 200 with size and remaining-TTL (ms) headers, `accepted` is 202
with the promise-TTL (ms) header, `conflict` is 409 with the promise-TTL (ms)
and Retry-After (s) headers. -/
inductive PostResponse where
  | okExists (size : Nat) (ttlMs : Int)
  | accepted (promiseTTLms : Int)
  | conflict (promiseTTLms retryAfterSec : Int)
  | badRequest
  | insufficientStorage
  | internalError
deriving DecidableEq, Repr

/-- Response of handlePut; the two 409 variants carry distinct messages in the
source ("No active promise" / "Content-Length does not match promised size"). -/
inductive PutResponse where
  | ok
  | conflictNoPromise
  | conflictSizeMismatch
  | lengthRequired
  | payloadTooLarge
  | badRequest
  | insufficientStorage
  | internalError
deriving DecidableEq, Repr

/-- CacheServer state: the storage engine and the promise map. -/
structure ServerState where
  store : InMemoryStorage
  promises : List Promise
deriving DecidableEq, Repr

/-- CanFit of the storage engine.  Modelled from the spec: the implementing
internal/storage file is not under src/; §4.3 defines
`can_fit(key_len, value_len) = key_len + value_len ≤ memory_cap`. -/
def canFit (s : InMemoryStorage) (keyLen valueLen : Nat) : Bool :=
  decide (keyLen + valueLen ≤ s.maxMemory)

/-- Shared 409 path of handlePost: RemainingTTL (which performs its own Get)
supplies the promise-TTL header in milliseconds and Retry-After as its
truncated seconds plus one. -/
def conflictResponse (store2 : InMemoryStorage) (pm : List Promise)
    (key : Bytes) (now : Int) : PostResponse × ServerState :=
  (.conflict ((pmRemainingTTL pm key now).1 / 1000000)
      ((pmRemainingTTL pm key now).1 / 1000000000 + 1),
   ⟨store2, (pmRemainingTTL pm key now).2⟩)

/-- Promise phase of handlePost (remote.go lines 167-197): existing promise
reports conflict; a dry run reports accepted without mutating the map;
otherwise Create, reporting accepted on success and conflict on a lost race. -/
def postPromisePhase (store2 : InMemoryStorage) (pm : List Promise)
    (key : Bytes) (valueSize ttlNs : Int) (dryRun : Bool) (now : Int) :
    PostResponse × ServerState :=
  match (pmGet pm key now).1 with
  | some _ => conflictResponse store2 (pmGet pm key now).2 key now
  | none =>
      if dryRun then
        (.accepted (ttlNs / 1000000), ⟨store2, (pmGet pm key now).2⟩)
      else
        if (pmCreate (pmGet pm key now).2 key valueSize ttlNs now).1 then
          (.accepted (ttlNs / 1000000),
           ⟨store2, (pmCreate (pmGet pm key now).2 key valueSize ttlNs now).2⟩)
        else
          conflictResponse store2
            (pmCreate (pmGet pm key now).2 key valueSize ttlNs now).2 key now

/-- TTL-header phase of handlePost (remote.go lines 153-162): absent means
the 30 s default; a nonpositive or malformed value is a 400. -/
def postTTLPhase (store2 : InMemoryStorage) (pm : List Promise) (key : Bytes)
    (valueSize : Int) (req : PostRequest) (now : Int) :
    PostResponse × ServerState :=
  match req.promiseTTLHeader with
  | .malformed => (.badRequest, ⟨store2, pm⟩)
  | .val n =>
      if n ≤ 0 then (.badRequest, ⟨store2, pm⟩)
      else postPromisePhase store2 pm key valueSize (n * 1000000) req.dryRun now
  | .absent =>
      postPromisePhase store2 pm key valueSize defaultPromiseTTLns req.dryRun now

/-- Size-header phase of handlePost (remote.go lines 136-151): a negative or
malformed size is a 400; a declared size that cannot fit is a 507. -/
def postSizePhase (store2 : InMemoryStorage) (pm : List Promise) (key : Bytes)
    (req : PostRequest) (now : Int) : PostResponse × ServerState :=
  match req.sizeHeader with
  | .malformed => (.badRequest, ⟨store2, pm⟩)
  | .val n =>
      if n < 0 then (.badRequest, ⟨store2, pm⟩)
      else if canFit store2 key.length n.toNat then
        postTTLPhase store2 pm key n req now
      else (.insufficientStorage, ⟨store2, pm⟩)
  | .absent => postTTLPhase store2 pm key (-1) req now

/-- handlePost from remote.go: a stored entry reports 200 with its metadata;
a storage error other than not-found is a 500; otherwise the size, TTL and
promise phases run. -/
def handlePost (st : ServerState) (key : Bytes) (req : PostRequest)
    (now : Int) : PostResponse × ServerState :=
  match (st.store.getEntry key now).1 with
  | .ok entry =>
      (.okExists entry.size (entry.remainingTTL / 1000000),
       ⟨(st.store.getEntry key now).2, st.promises⟩)
  | .error e =>
      if e = .keyNotFound then
        postSizePhase (st.store.getEntry key now).2 st.promises key req now
      else (.internalError, ⟨(st.store.getEntry key now).2, st.promises⟩)

/-- Storage phase of handlePut (remote.go lines 274-308): map storage errors
to statuses, fulfilling the promise on terminal ones and on success. -/
def putStorePhase (store : InMemoryStorage) (pm1 : List Promise) (key : Bytes)
    (body : Bytes) (ttlNs now : Int) : PutResponse × ServerState :=
  match (store.Put key body ttlNs now).1 with
  | none => (.ok, ⟨(store.Put key body ttlNs now).2, pmFulfill pm1 key⟩)
  | some .memoryLimitExceeded =>
      (.insufficientStorage, ⟨(store.Put key body ttlNs now).2, pm1⟩)
  | some .objectTooLarge =>
      (.payloadTooLarge, ⟨(store.Put key body ttlNs now).2, pmFulfill pm1 key⟩)
  | some .keyTooLong =>
      (.badRequest, ⟨(store.Put key body ttlNs now).2, pmFulfill pm1 key⟩)
  | some .keyTooShort =>
      (.badRequest, ⟨(store.Put key body ttlNs now).2, pmFulfill pm1 key⟩)
  | some .valueTooShort =>
      (.badRequest, ⟨(store.Put key body ttlNs now).2, pmFulfill pm1 key⟩)
  | some _ => (.internalError, ⟨(store.Put key body ttlNs now).2, pm1⟩)

/-- TTL-header phase of handlePut (remote.go lines 262-272). -/
def putTTLPhase (store : InMemoryStorage) (pm1 : List Promise) (key : Bytes)
    (body : Bytes) (req : PutRequest) (now : Int) :
    PutResponse × ServerState :=
  match req.ttlHeader with
  | .malformed => (.badRequest, ⟨store, pm1⟩)
  | .val n =>
      if n ≤ 0 then (.badRequest, ⟨store, pm1⟩)
      else putStorePhase store pm1 key body (n * 1000000) now
  | .absent => putStorePhase store pm1 key body defaultTTLns now

/-- handlePut from remote.go: Content-Length gates (411/413), the promise
check (409 without one), the size-mismatch check (terminal 409 with Fulfill
when the promise declared a nonnegative size the length does not match), the
body read under the 64 MiB cap (terminal 413) and the truncation check
(transient 400), then the TTL header and the storage Put. -/
def handlePut (st : ServerState) (key : Bytes) (req : PutRequest)
    (now : Int) : PutResponse × ServerState :=
  if req.contentLength < 0 then (.lengthRequired, st)
  else if (maxValueSizeBytes : Int) < req.contentLength then
    (.payloadTooLarge, st)
  else
    match (pmGet st.promises key now).1 with
    | none => (.conflictNoPromise, ⟨st.store, (pmGet st.promises key now).2⟩)
    | some p =>
        if 0 ≤ p.size ∧ req.contentLength ≠ p.size then
          (.conflictSizeMismatch,
           ⟨st.store, pmFulfill (pmGet st.promises key now).2 key⟩)
        else if maxValueSizeBytes < req.body.length then
          (.payloadTooLarge,
           ⟨st.store, pmFulfill (pmGet st.promises key now).2 key⟩)
        else if (req.body.length : Int) ≠ req.contentLength then
          (.badRequest, ⟨st.store, (pmGet st.promises key now).2⟩)
        else putTTLPhase st.store (pmGet st.promises key now).2 key req.body req now

/-- Promise TTL selected by handlePost for a request whose TTL header is
absent or carries a valid positive value (remote.go lines 153-162). -/
def postPromiseTTLns (req : PostRequest) : Int :=
  match req.promiseTTLHeader with
  | .val n => n * 1000000
  | _ => defaultPromiseTTLns

/-- Retry-After value the spec's words prescribe: the ceiling of the
remaining promise lifetime in seconds, plus one second. -/
def specRetryAfter (remaining : Int) : Int :=
  (remaining + 999999999) / 1000000000 + 1

/-- Server with an empty 100-byte store and one live promise for key "x"
with 1.5 s of remaining lifetime at instant 0, and no declared size. -/
def srvC3 : ServerState :=
  ⟨NewInMemoryStorage 100, [⟨[120], -1, 0, 1500000000⟩]⟩

/-- POST request with no headers and dry-run off. -/
def reqPlain : PostRequest := ⟨.absent, .absent, false⟩

/-- Server with an empty 100-byte store and one live promise for key "y"
whose declared size is 0. -/
def srvC5 : ServerState :=
  ⟨NewInMemoryStorage 100, [⟨[121], 0, 0, 10000000000⟩]⟩

/-- PUT request of a 5-byte body with Content-Length 5 and no TTL header. -/
def putReq5 : PutRequest := ⟨5, [1, 2, 3, 4, 5], .absent⟩

/-- Server with an empty 50-byte store and no promises. -/
def srvC9 : ServerState := ⟨NewInMemoryStorage 50, []⟩

/-- POST request with no headers and dry-run on. -/
def reqDry : PostRequest := ⟨.absent, .absent, true⟩

/-- Server with an empty 100-byte store and one live promise for key "y"
whose declared size is 10: the setup of spec scenario S5. -/
def srvC5b : ServerState :=
  ⟨NewInMemoryStorage 100, [⟨[121], 10, 0, 10000000000⟩]⟩

/-! ## Rendezvous router (internal/rendezvous/rendezvous.go)

The 64-bit hash is the spec's black-box primitive (§4.1): the development is
parameterised by an arbitrary function `hash : Bytes → Nat`.  `sort.Slice`
returns some permutation sorted by the comparator; under pairwise-distinct
identity strings `scoreBetter` is a strict total order, every sorted
permutation is unique, and the model fixes insertion sort as its
representative. -/

/-- Node from rendezvous.go, with its memoised identity string and 64-bit
identity hash (both computed once at construction and immutable). -/
structure Node where
  id : Bytes
  port : Int
  identityString : Bytes
  identityHash : Nat
deriving DecidableEq, Repr

/-- binary.LittleEndian.PutUint64: the 8 little-endian bytes of the 64-bit
identity hash, appended to the key in the scratch buffer. -/
def le64 (h : Nat) : Bytes :=
  [h % 256, h / 256 % 256, h / 256 ^ 2 % 256, h / 256 ^ 3 % 256,
   h / 256 ^ 4 % 256, h / 256 ^ 5 % 256, h / 256 ^ 6 % 256, h / 256 ^ 7 % 256]

/-- nodeScore from rendezvous.go. -/
structure NodeScore where
  node : Node
  score : Nat
deriving DecidableEq, Repr

/-- Byte-wise lexicographic comparison: Go `<` on strings. -/
def ltBytes : Bytes → Bytes → Bool
  | _, [] => false
  | [], _ :: _ => true
  | a :: as, b :: bs =>
      if a < b then true else if b < a then false else ltBytes as bs

/-- scoreBetter from rendezvous.go: higher score wins, ties break by
ascending identity string. -/
def scoreBetter (a b : NodeScore) : Bool :=
  if a.score ≠ b.score then decide (b.score < a.score)
  else ltBytes a.node.identityString b.node.identityString

/-- computeScore from rendezvous.go: hash of the key concatenated with the
little-endian identity hash. -/
def computeScore (hash : Bytes → Nat) (key : Bytes) (node : Node) :
    NodeScore :=
  ⟨node, hash (key ++ le64 node.identityHash)⟩

/-- Insertion into a list sorted descending by scoreBetter. -/
def insertDesc (x : NodeScore) : List NodeScore → List NodeScore
  | [] => [x]
  | y :: ys => if scoreBetter x y then x :: y :: ys else y :: insertDesc x ys

/-- Insertion sort descending by scoreBetter: the model of the `sort.Slice`
call of the general path. -/
def sortDesc : List NodeScore → List NodeScore
  | [] => []
  | x :: xs => insertDesc x (sortDesc xs)

/-- Fold of the k = 1 fast path: start from the first score, replace whenever
a later one is better. -/
def scanBest (x : NodeScore) (l : List NodeScore) : NodeScore :=
  l.foldl (fun b s => if scoreBetter s b then s else b) x

/-- One iteration of the k = 2 fast path; `none` is the zero-valued
`second` whose node pointer is nil. -/
def scan2Step (p : NodeScore × Option NodeScore) (s : NodeScore) :
    NodeScore × Option NodeScore :=
  if scoreBetter s p.1 then (s, some p.1)
  else
    match p.2 with
    | none => (p.1, some s)
    | some sec => if scoreBetter s sec then (p.1, some s) else p

/-- Fold of the k = 2 fast path. -/
def scan2 (x : NodeScore) (l : List NodeScore) :
    NodeScore × Option NodeScore :=
  l.foldl scan2Step (x, none)

/-- GetNodes from rendezvous.go, parameterised by the black-box hash.  `k` is
a Go int; the `k ≤ 0` early return is the `k = 0` case of the natural (the
claims only concern positive k). -/
def GetNodes (hash : Bytes → Nat) (nodes : List Node) (key : Bytes)
    (k : Nat) : List Node :=
  match nodes with
  | [] => []
  | n0 :: rest =>
      if k = 0 then []
      else if k = 1 then
        [(scanBest (computeScore hash key n0)
          (rest.map (computeScore hash key))).node]
      else if k = 2 then
        match (scan2 (computeScore hash key n0)
            (rest.map (computeScore hash key))).2 with
        | none =>
            [(scan2 (computeScore hash key n0)
              (rest.map (computeScore hash key))).1.node]
        | some sec =>
            [(scan2 (computeScore hash key n0)
              (rest.map (computeScore hash key))).1.node, sec.node]
      else
        ((sortDesc ((n0 :: rest).map (computeScore hash key))).take
          (min k (n0 :: rest).length)).map NodeScore.node

/-! ## Maxima, sortedness and the fast-path scans -/

/-- Maximal element of a list of scores wrt scoreBetter. -/
def IsMaxIn (m : NodeScore) (l : List NodeScore) : Prop :=
  m ∈ l ∧ ∀ y ∈ l, scoreBetter y m = false

/-- Connectedness of scoreBetter on the members of a list: two members
neither of which is better than the other are equal.  Holds whenever the
identity strings of the members are pairwise distinct. -/
def ScoreConn (l : List NodeScore) : Prop :=
  ∀ a ∈ l, ∀ b ∈ l, scoreBetter a b = false → scoreBetter b a = false → a = b

/-- Concrete executable 64-bit hash stand-in for the witness. -/
def hashSum : Bytes → Nat :=
  fun l => l.foldl (fun a b => 31 * a + b) 7

/-- Three nodes with pairwise-distinct identity strings "a:1", "b:2", "c:3". -/
def nodesABC : List Node :=
  [⟨[97], 1, [97, 58, 49], 11⟩, ⟨[98], 2, [98, 58, 50], 22⟩,
   ⟨[99], 3, [99, 58, 51], 33⟩]

/-! ## Lemmas and claim theorems -/

theorem findEntry_cons_pos {e : CachedObject} {k : Bytes}
    (es : List CachedObject) (h : e.key = k) :
    findEntry (e :: es) k = some e :=
  List.find?_cons_of_pos es (by simp [h])

theorem findEntry_cons_neg {e : CachedObject} {k : Bytes}
    (es : List CachedObject) (h : e.key ≠ k) :
    findEntry (e :: es) k = findEntry es k :=
  List.find?_cons_of_neg es (by simp [h])

theorem removeKey_cons_pos {e : CachedObject} {k : Bytes}
    (es : List CachedObject) (h : e.key = k) :
    removeKey (e :: es) k = es := by
  simp [removeKey, h]

theorem removeKey_cons_neg {e : CachedObject} {k : Bytes}
    (es : List CachedObject) (h : e.key ≠ k) :
    removeKey (e :: es) k = e :: removeKey es k := by
  simp [removeKey, h]

theorem findEntry_key_eq {l : List CachedObject} {k : Bytes}
    {node : CachedObject} (h : findEntry l k = some node) : node.key = k := by
  have := List.find?_some h
  simpa [beq_iff_eq] using this

theorem entriesSize_removeKey {l : List CachedObject} {k : Bytes}
    {node : CachedObject} (h : findEntry l k = some node) :
    entriesSize (removeKey l k) + node.getBytesUsed = entriesSize l := by
  induction l with
  | nil => simp [findEntry] at h
  | cons e es ih =>
      by_cases hk : e.key = k
      · rw [findEntry_cons_pos es hk] at h
        cases h
        rw [removeKey_cons_pos es hk]
        simp [entriesSize, Nat.add_comm]
      · rw [findEntry_cons_neg es hk] at h
        have := ih h
        rw [removeKey_cons_neg es hk]
        simp only [entriesSize, List.map_cons, List.sum_cons] at *
        omega

theorem removeKey_sublist (l : List CachedObject) (k : Bytes) :
    List.Sublist (removeKey l k) l := by
  induction l with
  | nil => simp [removeKey]
  | cons e es ih =>
      by_cases hk : e.key = k
      · rw [removeKey_cons_pos es hk]
        exact List.sublist_cons_self e es
      · rw [removeKey_cons_neg es hk]
        exact List.Sublist.cons₂ e ih

theorem not_mem_keys_removeKey {l : List CachedObject} {k : Bytes}
    {node : CachedObject} (hn : (l.map CachedObject.key).Nodup)
    (h : findEntry l k = some node) :
    k ∉ (removeKey l k).map CachedObject.key := by
  induction l with
  | nil => simp [findEntry] at h
  | cons e es ih =>
      simp only [List.map_cons, List.nodup_cons] at hn
      by_cases hk : e.key = k
      · rw [removeKey_cons_pos es hk]
        exact hk ▸ hn.1
      · rw [findEntry_cons_neg es hk] at h
        rw [removeKey_cons_neg es hk]
        simp only [List.map_cons, List.mem_cons]
        rintro (rfl | hmem)
        · exact hk rfl
        · exact ih hn.2 h hmem

theorem findEntry_eq_none_iff {l : List CachedObject} {k : Bytes} :
    findEntry l k = none ↔ k ∉ l.map CachedObject.key := by
  constructor
  · intro h hmem
    rcases List.mem_map.mp hmem with ⟨e, he, hk⟩
    have := List.find?_eq_none.mp h e he
    simp [beq_iff_eq, hk] at this
  · intro h
    apply List.find?_eq_none.mpr
    intro e he
    simp only [beq_iff_eq]
    intro hk
    exact h (List.mem_map.mpr ⟨e, he, hk⟩)

theorem wf_deleteUnlocked {s : InMemoryStorage} (h : WFStore s) (k : Bytes) :
    WFStore (deleteUnlocked s k).2 := by
  obtain ⟨hsum, hle, hnd⟩ := h
  unfold deleteUnlocked
  cases hf : findEntry s.entries k with
  | none => exact ⟨hsum, hle, hnd⟩
  | some node =>
      have hrem := entriesSize_removeKey hf
      refine ⟨by simp only; omega, by simp only; omega, ?_⟩
      exact List.Nodup.sublist
        (List.Sublist.map _ (removeKey_sublist s.entries k)) hnd

theorem wf_ttlCleanupLoop {s : InMemoryStorage} (h : WFStore s)
    (visit : List CachedObject) (freed minReclaim : Nat) (now : Int) :
    WFStore (ttlCleanupLoop s visit freed minReclaim now).2 := by
  induction visit generalizing s freed with
  | nil => exact h
  | cons ptr rest ih =>
      simp only [ttlCleanupLoop]
      split
      · split
        · exact wf_deleteUnlocked h ptr.key
        · exact ih (wf_deleteUnlocked h ptr.key) _
      · exact ih h _

theorem wf_evictionLoop {s : InMemoryStorage} (h : WFStore s)
    (visit : List CachedObject) (freed minReclaim : Nat) :
    WFStore (evictionLoop s visit freed minReclaim).2 := by
  induction visit generalizing s freed with
  | nil => exact h
  | cons ptr rest ih =>
      simp only [evictionLoop]
      split
      · exact wf_deleteUnlocked h ptr.key
      · exact ih (wf_deleteUnlocked h ptr.key) _

theorem wf_moveToTail {s : InMemoryStorage} {k : Bytes} {node : CachedObject}
    (h : WFStore s) (hf : findEntry s.entries k = some node) :
    WFStore (moveToTail s node) := by
  obtain ⟨hsum, hle, hnd⟩ := h
  have hkey : node.key = k := findEntry_key_eq hf
  subst hkey
  unfold moveToTail
  split
  · split
    · exact ⟨hsum, hle, hnd⟩
    · have hrem : entriesSize (removeKey s.entries node.key) +
          node.getBytesUsed = entriesSize s.entries := entriesSize_removeKey hf
      refine ⟨?_, hle, ?_⟩
      · simp only [entriesSize, List.map_append, List.sum_append,
          List.map_cons, List.map_nil, List.sum_cons, List.sum_nil] at *
        omega
      · simp only [List.map_append, List.map_cons, List.map_nil]
        rw [List.nodup_append]
        refine ⟨List.Nodup.sublist
          (List.Sublist.map _ (removeKey_sublist s.entries node.key)) hnd,
          List.nodup_singleton _, ?_⟩
        intro a ha hb
        simp only [List.mem_singleton] at hb
        subst hb
        exact not_mem_keys_removeKey hnd hf ha
  · exact ⟨hsum, hle, hnd⟩

theorem key_length_pos_of_valid {key : Bytes} (h : validateKey key = none) :
    0 < key.length := by
  by_cases h0 : key.length = 0
  · simp [validateKey, h0] at h
  · omega

theorem existingSize_pos_find {s : InMemoryStorage} {key : Bytes}
    (h : 0 < existingSize s key) :
    ∃ node, findEntry s.entries key = some node := by
  unfold existingSize at h
  cases hf : findEntry s.entries key with
  | none => rw [hf] at h; simp at h
  | some node => exact ⟨node, rfl⟩

theorem existingSize_eq_zero_absent {s : InMemoryStorage} {key : Bytes}
    (hk : validateKey key = none) (h : existingSize s key = 0) :
    findEntry s.entries key = none := by
  unfold existingSize at h
  cases hf : findEntry s.entries key with
  | none => rfl
  | some node =>
      rw [hf] at h
      have hkey := findEntry_key_eq hf
      have := key_length_pos_of_valid hk
      simp only [CachedObject.getBytesUsed, hkey] at h
      omega

theorem wf_putInsert {s2 : InMemoryStorage} {key value : Bytes}
    {ttl now : Int} (h : WFStore s2)
    (habsent : findEntry s2.entries key = none) :
    WFStore (putInsert s2 key value ttl now).2 := by
  obtain ⟨hsum, hle, hnd⟩ := h
  unfold putInsert
  split
  · exact ⟨hsum, hle, hnd⟩
  · next hfit =>
      refine ⟨?_, ?_, ?_⟩
      · simp only [entriesSize, List.map_append, List.sum_append,
          List.map_cons, List.map_nil, List.sum_cons, List.sum_nil]
        simp only [entriesSize] at hsum
        omega
      · simp only [CachedObject.getBytesUsed] at *
        omega
      · simp only [List.map_append, List.map_cons, List.map_nil]
        rw [List.nodup_append]
        refine ⟨hnd, List.nodup_singleton _, ?_⟩
        intro a ha hb
        simp only [List.mem_singleton] at hb
        subst hb
        exact (findEntry_eq_none_iff.mp habsent) ha

theorem wf_putFinish {s : InMemoryStorage} {key value : Bytes}
    {ttl now : Int} (h : WFStore s) (hk : validateKey key = none) :
    WFStore (putFinish s key value ttl now (existingSize s key)).2 := by
  have habsent : findEntry (if 0 < existingSize s key
      then (deleteUnlocked s key).2 else s).entries key = none := by
    split
    · next hpos =>
        obtain ⟨node, hf⟩ := existingSize_pos_find hpos
        unfold deleteUnlocked
        rw [hf]
        exact findEntry_eq_none_iff.mpr (not_mem_keys_removeKey h.2.2 hf)
    · next hz =>
        exact existingSize_eq_zero_absent hk (by omega)
  have hwf2 : WFStore (if 0 < existingSize s key
      then (deleteUnlocked s key).2 else s) := by
    split
    · exact wf_deleteUnlocked h key
    · exact h
  exact wf_putInsert hwf2 habsent

theorem wf_evictPhase {s : InMemoryStorage} (h : WFStore s)
    (needed : Nat) (now : Int) : WFStore (evictPhase s needed now).2 := by
  unfold evictPhase
  have h1 : WFStore (s.limitedTtlCleanup needed now).2 :=
    wf_ttlCleanupLoop h _ _ _ _
  split
  · exact wf_evictionLoop h1 _ _ _
  · exact h1

theorem wf_Put {s : InMemoryStorage} (h : WFStore s) (key value : Bytes)
    (ttl now : Int) : WFStore (s.Put key value ttl now).2 := by
  unfold InMemoryStorage.Put
  cases hv : validateKey key with
  | some e => exact h
  | none =>
      simp only
      split
      · exact h
      · split
        · exact h
        · split
          · exact h
          · split
            · have h1 : WFStore (evictPhase s (putNeeded s key value) now).2 :=
                wf_evictPhase h _ now
              split
              · exact h1
              · exact wf_putFinish h1 hv
            · exact wf_putFinish h hv

theorem wf_Get {s : InMemoryStorage} (h : WFStore s) (key : Bytes)
    (now : Int) : WFStore (s.Get key now).2 := by
  unfold InMemoryStorage.Get InMemoryStorage.getEntry
  cases validateKey key with
  | some e => exact h
  | none =>
      simp only
      cases hf : findEntry s.entries key with
      | none => exact h
      | some node =>
          simp only
          split
          · exact wf_deleteUnlocked h key
          · exact wf_moveToTail h hf

theorem wf_Delete {s : InMemoryStorage} (h : WFStore s) (key : Bytes) :
    WFStore (s.Delete key).2 := by
  unfold InMemoryStorage.Delete
  cases validateKey key with
  | some e => exact h
  | none => exact wf_deleteUnlocked h key

theorem wf_execOp {s : InMemoryStorage} (h : WFStore s) (op : StorageOp) :
    WFStore (execOp s op) := by
  cases op with
  | get key now => exact wf_Get h key now
  | put key value ttl now => exact wf_Put h key value ttl now
  | del key => exact wf_Delete h key

theorem wf_foldl {s : InMemoryStorage} (h : WFStore s)
    (ops : List StorageOp) : WFStore (ops.foldl execOp s) := by
  induction ops generalizing s with
  | nil => exact h
  | cons op rest ih =>
      rw [List.foldl_cons]
      exact ih (wf_execOp h op)

theorem wf_runOps (maxMemory : Nat) (ops : List StorageOp) :
    WFStore (runOps maxMemory ops) :=
  wf_foldl ⟨rfl, by simp [NewInMemoryStorage], by simp [NewInMemoryStorage]⟩ ops

/-! ## Storage claim theorems -/

/-- C2: for every sequence of public storage operations (Get, Put, Delete)
starting from a fresh store, on exit from each operation `memory_used` equals
the sum of `len(key) + len(value)` over all entries currently in the map, and
`memory_used ≤ memory_cap`. -/
theorem memory_accounting_invariant (maxMemory : Nat) (ops : List StorageOp) :
    (runOps maxMemory ops).memoryUsedBytes =
      entriesSize (runOps maxMemory ops).entries ∧
    (runOps maxMemory ops).memoryUsedBytes ≤
      (runOps maxMemory ops).maxMemory :=
  ⟨(wf_runOps maxMemory ops).1, (wf_runOps maxMemory ops).2.1⟩

/-- C1 evaluation: with `"a"` (6 bytes) at the LRU head and `"b"` (6 bytes)
behind it in a 12-byte store — the exact setup of storage_test.go's
TestEviction_DeletesKeyBeingUpdated — updating `"a"` with a 7-byte value
triggers the eviction path, which evicts `"a"` itself; Put then fails the
final memory check with ErrMemoryLimitExceeded and `"a"` stays deleted,
although the test asserts the Put must succeed. -/
theorem put_head_update_memory_bug :
    twoEntryStore.entries =
      [⟨[97], [1, 1, 1, 1, 1], 3600000000000⟩,
       ⟨[98], [2, 2, 2, 2, 2], 3600000000001⟩] ∧
    twoEntryStore.maxMemory < twoEntryStore.memoryUsedBytes +
      putNeeded twoEntryStore [97] [3, 3, 3, 3, 3, 3, 3] ∧
    twoEntryStore.Put [97] [3, 3, 3, 3, 3, 3, 3] 3600000000000 2 =
      (some .memoryLimitExceeded,
       ⟨6, 12, [⟨[98], [2, 2, 2, 2, 2], 3600000000001⟩]⟩) := by decide

/-- C10: Put is not atomic on capacity failure.  From the reachable state
`smallStore` (one live 5-byte entry, cap 20), putting a 20-byte object needs
20 bytes but eviction can free at most the 5 bytes in use, so Put returns
ErrMemoryLimitExceeded after having deleted `"a"`, and the deletion persists:
the failed Put strictly shrinks the set of stored keys. -/
theorem put_capacity_failure_not_atomic :
    runOps 20 [StorageOp.put [97] [1, 1, 1, 1] 3600000000000 0] = smallStore ∧
    [98].length + (List.replicate 19 7).length ≤ smallStore.maxMemory ∧
    smallStore.entries ≠ [] ∧
    smallStore.Put [98] (List.replicate 19 7) 3600000000000 1 =
      (some .memoryLimitExceeded, ⟨0, 20, []⟩) := by decide

/-- C6 counterexample: a Put whose size equals `memory_cap` exactly does not
always succeed — from `smallStore` (one 5-byte live entry, cap 20) the
20-byte put `"b"` fails with ErrMemoryLimitExceeded even though its key is
valid, its value nonempty and its TTL positive. -/
theorem exact_fit_put_can_fail :
    [98].length + (List.replicate 19 7).length = smallStore.maxMemory ∧
    validateKey [98] = none ∧
    (smallStore.Put [98] (List.replicate 19 7) 3600000000000 1).1 ≠ none := by
  decide

/-- C6 amended: an otherwise-valid Put whose size is exactly the cap succeeds
from an empty store (the "fills exactly" boundary), and a Put whose size is
`memory_cap + 1` returns ErrObjectTooLarge in every state. -/
theorem put_capacity_boundaries (cap : Nat) (key value : Bytes)
    (ttl now : Int) (s : InMemoryStorage) (hk : validateKey key = none)
    (hv : value.length ≠ 0) (ht : 0 < ttl) :
    (key.length + value.length = cap →
      ((NewInMemoryStorage cap).Put key value ttl now).1 = none) ∧
    (key.length + value.length = s.maxMemory + 1 →
      (s.Put key value ttl now).1 = some .objectTooLarge) := by
  have hkl := key_length_pos_of_valid hk
  constructor
  · intro hcap
    have hex : existingSize (NewInMemoryStorage cap) key = 0 := by
      simp [existingSize, findEntry, NewInMemoryStorage]
    have hneed : putNeeded (NewInMemoryStorage cap) key value = cap := by
      unfold putNeeded
      rw [hex, if_pos (by omega)]
      omega
    unfold InMemoryStorage.Put
    rw [hk]
    simp only
    rw [if_neg (by omega), if_neg hv, if_neg (by simp [NewInMemoryStorage]; omega),
      hneed, if_neg (by simp [NewInMemoryStorage])]
    unfold putFinish
    rw [hex, if_neg (by omega)]
    unfold putInsert
    rw [if_neg (by simp [NewInMemoryStorage]; omega)]
  · intro hcap
    unfold InMemoryStorage.Put
    rw [hk]
    simp only
    rw [if_neg (by omega), if_neg hv, if_pos (by omega)]

/-- C6 amended witness: the exact-fit boundary at cap 10 with key "key" and a
7-byte value, and the cap-plus-one boundary at cap 9 with the same object. -/
theorem put_capacity_boundaries_holds :
    ((NewInMemoryStorage 10).Put [107, 101, 121] (List.replicate 7 1) 60 0).1
      = none ∧
    ((NewInMemoryStorage 9).Put [107, 101, 121] (List.replicate 7 1) 60 0).1
      = some .objectTooLarge :=
  ⟨(put_capacity_boundaries 10 [107, 101, 121] (List.replicate 7 1) 60 0
      (NewInMemoryStorage 9) (by decide) (by decide) (by decide)).1 (by decide),
   (put_capacity_boundaries 10 [107, 101, 121] (List.replicate 7 1) 60 0
      (NewInMemoryStorage 9) (by decide) (by decide) (by decide)).2 (by decide)⟩

/-- C4 counterexample: for the valid key `"a"`, `Put("a", empty value,
ttl = 0)` returns ErrInvalidTTL, not ErrValueTooShort: the TTL check runs
before the value check. -/
theorem put_validation_order_cx :
    validateKey [97] = none ∧
    ((NewInMemoryStorage 100).Put [97] [] 0 0).1 = some .invalidTTL ∧
    some StorageErr.invalidTTL ≠ some StorageErr.valueTooShort := by decide

/-- C4 amended: Put validates in the order key length (ErrKeyTooShort /
ErrKeyTooLong), then `ttl > 0` (ErrInvalidTTL), then value non-emptiness
(ErrValueTooShort); for every valid key, `Put(key, empty value, ttl ≤ 0)`
returns ErrInvalidTTL. -/
theorem put_validation_order (s : InMemoryStorage) (key value : Bytes)
    (ttl now : Int) :
    (key.length = 0 → (s.Put key value ttl now).1 = some .keyTooShort) ∧
    (key.length ≠ 0 → maxKeySizeBytes < key.length →
      (s.Put key value ttl now).1 = some .keyTooLong) ∧
    (validateKey key = none → ttl ≤ 0 →
      (s.Put key value ttl now).1 = some .invalidTTL) ∧
    (validateKey key = none → 0 < ttl → value.length = 0 →
      (s.Put key value ttl now).1 = some .valueTooShort) := by
  refine ⟨?_, ?_, ?_, ?_⟩
  · intro h0
    unfold InMemoryStorage.Put
    rw [show validateKey key = some .keyTooShort by simp [validateKey, h0]]
  · intro h0 hlong
    unfold InMemoryStorage.Put
    rw [show validateKey key = some .keyTooLong by
      simp [validateKey, h0]; omega]
  · intro hk ht
    unfold InMemoryStorage.Put
    rw [hk]
    simp only
    rw [if_pos ht]
  · intro hk ht hv
    unfold InMemoryStorage.Put
    rw [hk]
    simp only
    rw [if_neg (by omega), if_pos hv]

/-- C4 amended witness: the empty-value, zero-TTL put on the valid key `"a"`
reports ErrInvalidTTL. -/
theorem put_validation_order_holds :
    ((NewInMemoryStorage 100).Put [97] [] 0 0).1 = some .invalidTTL :=
  (put_validation_order (NewInMemoryStorage 100) [97] [] 0 0).2.2.1
    (by decide) (by decide)

/-- C7: on a valid key, a Get that finds an entry whose expiration is before
`now` deletes it (removing it from the entry list and subtracting its bytes)
in the same atomic step and returns ErrKeyNotFound, and a Get on an absent
key returns the same ErrKeyNotFound with the state untouched: a miss and a
read-after-expiry are indistinguishable to the caller. -/
theorem get_lazy_expiry (s : InMemoryStorage) (key : Bytes) (now : Int)
    (node : CachedObject) (hk : validateKey key = none) :
    (findEntry s.entries key = some node → node.expirationTime < now →
      s.Get key now = (.error .keyNotFound,
        { s with entries := removeKey s.entries key,
                 memoryUsedBytes := s.memoryUsedBytes - node.getBytesUsed })) ∧
    (findEntry s.entries key = none →
      s.Get key now = (.error .keyNotFound, s)) := by
  constructor
  · intro hf hexp
    unfold InMemoryStorage.Get InMemoryStorage.getEntry
    rw [hk, hf]
    simp only [if_pos hexp]
    unfold deleteUnlocked
    rw [hf]
    rfl
  · intro hf
    unfold InMemoryStorage.Get InMemoryStorage.getEntry
    rw [hk, hf]
    rfl

/-- C7 witness: reading the expired entry of `expiredStore` at instant 10
deletes it and misses, and reading the absent key `"z"` misses identically. -/
theorem get_lazy_expiry_holds :
    expiredStore.Get [97] 10 = (.error .keyNotFound, ⟨0, 20, []⟩) ∧
    expiredStore.Get [122] 10 = (.error .keyNotFound, expiredStore) :=
  ⟨(get_lazy_expiry expiredStore [97] 10 ⟨[97], [1, 1, 1, 1, 1], 5⟩
      (by decide)).1 (by rfl) (by decide),
   (get_lazy_expiry expiredStore [122] 10 ⟨[97], [1, 1, 1, 1, 1], 5⟩
      (by decide)).2 (by rfl)⟩

/-! ## Promise map lemmas -/

theorem pmFind_cons_pos {p : Promise} {k : Bytes} (ps : List Promise)
    (h : p.key = k) : pmFind (p :: ps) k = some p :=
  List.find?_cons_of_pos ps (by simp [h])

theorem pmFind_cons_neg {p : Promise} {k : Bytes} (ps : List Promise)
    (h : p.key ≠ k) : pmFind (p :: ps) k = pmFind ps k :=
  List.find?_cons_of_neg ps (by simp [h])

theorem pmFind_eq_none_iff {pm : List Promise} {k : Bytes} :
    pmFind pm k = none ↔ k ∉ pm.map Promise.key := by
  constructor
  · intro h hmem
    rcases List.mem_map.mp hmem with ⟨p, hp, hk⟩
    have := List.find?_eq_none.mp h p hp
    simp [beq_iff_eq, hk] at this
  · intro h
    apply List.find?_eq_none.mpr
    intro p hp
    simp only [beq_iff_eq]
    intro hk
    exact h (List.mem_map.mpr ⟨p, hp, hk⟩)

theorem pmRemove_cons_pos {p : Promise} {k : Bytes} (ps : List Promise)
    (h : p.key = k) : pmRemove (p :: ps) k = ps := by
  simp [pmRemove, h]

theorem pmRemove_cons_neg {p : Promise} {k : Bytes} (ps : List Promise)
    (h : p.key ≠ k) : pmRemove (p :: ps) k = p :: pmRemove ps k := by
  simp [pmRemove, h]

theorem pmGet_eq_of_find_none {pm : List Promise} {k : Bytes} {now : Int}
    (hf : pmFind pm k = none) : pmGet pm k now = (none, pm) := by
  unfold pmGet
  rw [hf]

theorem pmGet_eq_of_find_some {pm : List Promise} {k : Bytes} {now : Int}
    {p : Promise} (hf : pmFind pm k = some p) :
    pmGet pm k now =
      if now < p.expiresAt then (some p, pm)
      else if p.expiresAt < now then (none, pmRemove pm k)
      else (some p, pm) := by
  unfold pmGet
  rw [hf]

theorem pmFind_pmRemove_nodup {pm : List Promise} {k : Bytes}
    (hnod : (pm.map Promise.key).Nodup) :
    pmFind (pmRemove pm k) k = none := by
  induction pm with
  | nil => rfl
  | cons p ps ih =>
      simp only [List.map_cons, List.nodup_cons] at hnod
      by_cases hk : p.key = k
      · rw [pmRemove_cons_pos ps hk]
        exact pmFind_eq_none_iff.mpr (hk ▸ hnod.1)
      · rw [pmRemove_cons_neg ps hk, pmFind_cons_neg _ hk]
        exact ih hnod.2

theorem liveOnly_pmRemove_dead {pm : List Promise} {k : Bytes} {p : Promise}
    {now : Int} (hfind : pmFind pm k = some p)
    (hdead : ¬ now < p.expiresAt) :
    liveOnly (pmRemove pm k) now = liveOnly pm now := by
  induction pm with
  | nil => rfl
  | cons q qs ih =>
      by_cases hk : q.key = k
      · rw [pmFind_cons_pos qs hk] at hfind
        cases hfind
        rw [pmRemove_cons_pos qs hk]
        simp [liveOnly, List.filter_cons, hdead]
      · rw [pmFind_cons_neg qs hk] at hfind
        rw [pmRemove_cons_neg qs hk]
        have hih := ih hfind
        simp only [liveOnly, List.filter_cons] at hih ⊢
        rw [hih]

theorem pmGet_none_cases {pm : List Promise} {k : Bytes} {now : Int}
    (h : (pmGet pm k now).1 = none) :
    (pmFind pm k = none ∧ (pmGet pm k now).2 = pm) ∨
    (∃ p, pmFind pm k = some p ∧ p.expiresAt < now ∧
      (pmGet pm k now).2 = pmRemove pm k) := by
  cases hf : pmFind pm k with
  | none => exact Or.inl ⟨rfl, by rw [pmGet_eq_of_find_none hf]⟩
  | some p =>
      rw [pmGet_eq_of_find_some hf] at h ⊢
      by_cases h1 : now < p.expiresAt
      · rw [if_pos h1] at h
        simp at h
      · rw [if_neg h1] at h ⊢
        by_cases h2 : p.expiresAt < now
        · rw [if_pos h2] at h ⊢
          exact Or.inr ⟨p, rfl, h2, rfl⟩
        · rw [if_neg h2] at h
          simp at h

theorem pmFind_of_pmGet_none {pm : List Promise} {k : Bytes} {now : Int}
    (hnod : (pm.map Promise.key).Nodup) (h : (pmGet pm k now).1 = none) :
    pmFind (pmGet pm k now).2 k = none := by
  rcases pmGet_none_cases h with ⟨hf, h2⟩ | ⟨p, hf, hexp, h2⟩
  · rw [h2]; exact hf
  · rw [h2]; exact pmFind_pmRemove_nodup hnod

theorem liveOnly_of_pmGet_none {pm : List Promise} {k : Bytes} {now : Int}
    (h : (pmGet pm k now).1 = none) :
    liveOnly (pmGet pm k now).2 now = liveOnly pm now := by
  rcases pmGet_none_cases h with ⟨hf, h2⟩ | ⟨p, hf, hexp, h2⟩
  · rw [h2]
  · rw [h2]
    exact liveOnly_pmRemove_dead hf (by omega)

/-- Plain intend (no headers, no dry run) on a server whose storage misses the
key and whose promise map has no entry for it reports 202 Accepted with the
default 30 s promise TTL in milliseconds. -/
theorem handlePost_plain_accepted (store : InMemoryStorage)
    (pm : List Promise) (key : Bytes) (now2 : Int)
    (hmiss : (store.getEntry key now2).1 = .error .keyNotFound)
    (hfind : pmFind pm key = none) :
    (handlePost ⟨store, pm⟩ key reqPlain now2).1 = .accepted 30000 := by
  have hpm : pmGet pm key now2 = (none, pm) := pmGet_eq_of_find_none hfind
  have h30 : defaultPromiseTTLns / 1000000 = (30000 : Int) := by decide
  simp [handlePost, hmiss, postSizePhase, reqPlain, postTTLPhase,
    postPromisePhase, hpm, pmCreate, hfind, h30]

/-! ## Claim theorems for the admission handlers -/

/-- C3 counterexample: with a 1.5 s live promise and remaining lifetime
r = 1500 ms, the intend reports 409 with retry_after = 2 — the truncation of
r in seconds plus one — whereas ceil(r in seconds) + 1 = 3: the claimed
header formula is wrong for fractional seconds. -/
theorem post_conflict_retry_after_cx :
    (handlePost srvC3 [120] reqPlain 0).1 = .conflict 1500 2 ∧
    specRetryAfter 1500000000 = 3 ∧
    (2 : Int) ≠ 3 := by decide

/-- C3 amended: an intend that reaches the promise check (storage misses the
key; size and promise-TTL headers absent or valid) on a key with a live
promise of remaining lifetime r reports Conflict with promise_ttl = r in
milliseconds (truncated) and retry_after = (r in seconds, truncated) + 1. -/
theorem post_conflict_headers (st : ServerState) (key : Bytes)
    (req : PostRequest) (now : Int) (p : Promise)
    (hmiss : (st.store.getEntry key now).1 = .error .keyNotFound)
    (hsize : req.sizeHeader = .absent ∨
      ∃ n, req.sizeHeader = .val n ∧ 0 ≤ n ∧
        canFit (st.store.getEntry key now).2 key.length n.toNat = true)
    (httl : req.promiseTTLHeader = .absent ∨
      ∃ n, req.promiseTTLHeader = .val n ∧ 0 < n)
    (hfind : pmFind st.promises key = some p)
    (hlive : now < p.expiresAt) :
    (handlePost st key req now).1 =
      .conflict ((p.expiresAt - now) / 1000000)
        ((p.expiresAt - now) / 1000000000 + 1) := by
  have hpm : pmGet st.promises key now = (some p, st.promises) := by
    rw [pmGet_eq_of_find_some hfind, if_pos hlive]
  have hrem : pmRemainingTTL st.promises key now =
      (p.expiresAt - now, st.promises) := by
    unfold pmRemainingTTL
    rw [hpm]
    simp only
    rw [if_neg (by omega)]
  have hconf : ∀ store2, conflictResponse store2 st.promises key now =
      (.conflict ((p.expiresAt - now) / 1000000)
        ((p.expiresAt - now) / 1000000000 + 1), ⟨store2, st.promises⟩) := by
    intro store2
    unfold conflictResponse
    rw [hrem]
  have hphase : ∀ store2 vs tns dr,
      postPromisePhase store2 st.promises key vs tns dr now =
      (.conflict ((p.expiresAt - now) / 1000000)
        ((p.expiresAt - now) / 1000000000 + 1), ⟨store2, st.promises⟩) := by
    intro store2 vs tns dr
    unfold postPromisePhase
    rw [hpm]
    simp only
    exact hconf store2
  rcases hsize with hs | ⟨n, hs, hn0, hfit⟩
  · rcases httl with ht | ⟨m, ht, hm0⟩
    · simp [handlePost, hmiss, postSizePhase, postTTLPhase, hs, ht, hphase]
    · simp [handlePost, hmiss, postSizePhase, postTTLPhase, hs, ht, hphase,
        not_le.mpr hm0]
  · rcases httl with ht | ⟨m, ht, hm0⟩
    · simp [handlePost, hmiss, postSizePhase, postTTLPhase, hs, ht, hfit,
        hphase, not_lt.mpr hn0]
    · simp [handlePost, hmiss, postSizePhase, postTTLPhase, hs, ht, hfit,
        hphase, not_lt.mpr hn0, not_le.mpr hm0]

/-- C3 amended witness: the 1.5 s promise of `srvC3` produces promise_ttl
1500 ms and Retry-After 2 s. -/
theorem post_conflict_headers_holds :
    (handlePost srvC3 [120] reqPlain 0).1 = .conflict 1500 2 := by
  have h := post_conflict_headers srvC3 [120] reqPlain 0
    ⟨[120], -1, 0, 1500000000⟩ (by rfl) (Or.inl rfl) (Or.inl rfl)
    (by rfl) (by decide)
  simpa using h

/-- C5 counterexample: a promise whose declared size is 0 — not positive —
still triggers the size-mismatch rejection on a 5-byte upload, because the
code guards with `promise.Size >= 0`, not `> 0`. -/
theorem put_size_mismatch_zero_size_cx :
    pmFind srvC5.promises [121] = some ⟨[121], 0, 0, 10000000000⟩ ∧
    ((⟨[121], 0, 0, 10000000000⟩ : Promise).size ≤ 0) ∧
    (handlePut srvC5 [121] putReq5 0).1 = .conflictSizeMismatch := by decide

/-- C5 amended: on an upload whose Content-Length is admissible (0 ≤ len ≤
64 MiB) against a live promise with a nonnegative declared size different
from that length, the server reports conflict-size-mismatch and fulfills
(deletes) the promise, leaving storage untouched; a subsequent plain intend
for the key (with storage still missing it) reports Accepted. -/
theorem put_size_mismatch_terminal (st : ServerState) (key : Bytes)
    (req : PutRequest) (now now2 : Int) (p : Promise)
    (hnod : (st.promises.map Promise.key).Nodup)
    (hfind : pmFind st.promises key = some p)
    (hlive : now < p.expiresAt)
    (hsz : 0 ≤ p.size)
    (hcl0 : 0 ≤ req.contentLength)
    (hcl1 : req.contentLength ≤ (maxValueSizeBytes : Int))
    (hne : req.contentLength ≠ p.size)
    (hmiss2 : (st.store.getEntry key now2).1 = .error .keyNotFound) :
    (handlePut st key req now).1 = .conflictSizeMismatch ∧
    (handlePut st key req now).2.store = st.store ∧
    (handlePut st key req now).2.promises = pmRemove st.promises key ∧
    (handlePost (handlePut st key req now).2 key reqPlain now2).1 =
      .accepted 30000 := by
  have hpm : pmGet st.promises key now = (some p, st.promises) := by
    rw [pmGet_eq_of_find_some hfind, if_pos hlive]
  have hput : handlePut st key req now =
      (.conflictSizeMismatch, ⟨st.store, pmRemove st.promises key⟩) := by
    unfold handlePut
    rw [if_neg (by omega), if_neg (by omega), hpm]
    simp only
    rw [if_pos ⟨hsz, hne⟩]
    rfl
  refine ⟨by rw [hput], by rw [hput], by rw [hput], ?_⟩
  rw [hput]
  exact handlePost_plain_accepted st.store (pmRemove st.promises key) key now2
    hmiss2 (pmFind_pmRemove_nodup hnod)

/-- C5 amended witness: the S5 scenario — promise with declared size 10, PUT
with a 5-byte body — is rejected with conflict-size-mismatch, the promise is
released and a subsequent plain intend is accepted. -/
theorem put_size_mismatch_terminal_holds :
    (handlePut srvC5b [121] putReq5 0).1 = .conflictSizeMismatch ∧
    (handlePut srvC5b [121] putReq5 0).2.store = srvC5b.store ∧
    (handlePut srvC5b [121] putReq5 0).2.promises =
      pmRemove srvC5b.promises [121] ∧
    (handlePost (handlePut srvC5b [121] putReq5 0).2 [121] reqPlain 1).1 =
      .accepted 30000 :=
  put_size_mismatch_terminal srvC5b [121] putReq5 0 1
    ⟨[121], 10, 0, 10000000000⟩ (by decide) (by rfl) (by decide) (by decide)
    (by decide) (by decide) (by decide) (by rfl)

/-- C9: a dry-run intend that reaches the promise check (storage misses the
key; headers absent or valid) and observes no promise reports 202 Accepted
with the promise-TTL header, without creating a promise: the promise map
keeps exactly its live promises (only an already-expired entry for the key
can be lazily dropped), and a subsequent plain non-dry-run intend for the
same key (with storage still missing it) is also Accepted. -/
theorem post_dry_run_no_mutation (st : ServerState) (key : Bytes)
    (req : PostRequest) (now now2 : Int)
    (hnod : (st.promises.map Promise.key).Nodup)
    (hmiss : (st.store.getEntry key now).1 = .error .keyNotFound)
    (hdry : req.dryRun = true)
    (hsize : req.sizeHeader = .absent ∨
      ∃ n, req.sizeHeader = .val n ∧ 0 ≤ n ∧
        canFit (st.store.getEntry key now).2 key.length n.toNat = true)
    (httl : req.promiseTTLHeader = .absent ∨
      ∃ n, req.promiseTTLHeader = .val n ∧ 0 < n)
    (hnp : (pmGet st.promises key now).1 = none)
    (hmiss2 : ((st.store.getEntry key now).2.getEntry key now2).1 =
      .error .keyNotFound) :
    (handlePost st key req now).1 =
      .accepted (postPromiseTTLns req / 1000000) ∧
    (handlePost st key req now).2.promises = (pmGet st.promises key now).2 ∧
    liveOnly (handlePost st key req now).2.promises now =
      liveOnly st.promises now ∧
    (handlePost (handlePost st key req now).2 key reqPlain now2).1 =
      .accepted 30000 := by
  have hphase : ∀ store2 vs tns,
      postPromisePhase store2 st.promises key vs tns true now =
      (.accepted (tns / 1000000), ⟨store2, (pmGet st.promises key now).2⟩) := by
    intro store2 vs tns
    unfold postPromisePhase
    rw [hnp]
    rfl
  have hpost : handlePost st key req now =
      (.accepted (postPromiseTTLns req / 1000000),
       ⟨(st.store.getEntry key now).2, (pmGet st.promises key now).2⟩) := by
    rcases hsize with hs | ⟨n, hs, hn0, hfit⟩
    · rcases httl with ht | ⟨m, ht, hm0⟩
      · simp [handlePost, hmiss, postSizePhase, postTTLPhase, hs, ht, hdry,
          hphase, postPromiseTTLns]
      · simp [handlePost, hmiss, postSizePhase, postTTLPhase, hs, ht, hdry,
          hphase, not_le.mpr hm0, postPromiseTTLns]
    · rcases httl with ht | ⟨m, ht, hm0⟩
      · simp [handlePost, hmiss, postSizePhase, postTTLPhase, hs, ht, hfit,
          hdry, hphase, not_lt.mpr hn0, postPromiseTTLns]
      · simp [handlePost, hmiss, postSizePhase, postTTLPhase, hs, ht, hfit,
          hdry, hphase, not_lt.mpr hn0, not_le.mpr hm0, postPromiseTTLns]
  refine ⟨by rw [hpost], by rw [hpost], ?_, ?_⟩
  · rw [hpost]
    exact liveOnly_of_pmGet_none hnp
  · rw [hpost]
    exact handlePost_plain_accepted _ _ key now2 hmiss2
      (pmFind_of_pmGet_none hnod hnp)

/-- C9 witness: a dry-run intend on the empty server `srvC9` is accepted with
the default promise TTL, leaves the promise map empty, and a subsequent plain
intend is accepted too. -/
theorem post_dry_run_no_mutation_holds :
    (handlePost srvC9 [121] reqDry 0).1 =
      .accepted (postPromiseTTLns reqDry / 1000000) ∧
    (handlePost srvC9 [121] reqDry 0).2.promises =
      (pmGet srvC9.promises [121] 0).2 ∧
    liveOnly (handlePost srvC9 [121] reqDry 0).2.promises 0 =
      liveOnly srvC9.promises 0 ∧
    (handlePost (handlePost srvC9 [121] reqDry 0).2 [121] reqPlain 1).1 =
      .accepted 30000 :=
  post_dry_run_no_mutation srvC9 [121] reqDry 0 1 (by decide) (by rfl)
    (by rfl) (Or.inl rfl) (Or.inl rfl) (by rfl) (by rfl)

/-! ## Order properties of scoreBetter -/

theorem ltBytes_irrefl (x : Bytes) : ltBytes x x = false := by
  induction x with
  | nil => rfl
  | cons a as ih => simp [ltBytes, ih]

theorem ltBytes_asymm {x y : Bytes} (h : ltBytes x y = true) :
    ltBytes y x = false := by
  induction x generalizing y with
  | nil =>
      cases y with
      | nil => simp [ltBytes] at h
      | cons b bs => rfl
  | cons a as ih =>
      cases y with
      | nil => simp [ltBytes] at h
      | cons b bs =>
          simp only [ltBytes] at h ⊢
          by_cases hab : a < b
          · rw [if_neg (show ¬ b < a by omega), if_pos hab]
          · rw [if_neg hab] at h
            by_cases hba : b < a
            · rw [if_pos hba] at h
              exact absurd h (by simp)
            · rw [if_neg hba] at h
              rw [if_neg hba, if_neg hab]
              exact ih h

theorem ltBytes_trans {x y z : Bytes} (h1 : ltBytes x y = true)
    (h2 : ltBytes y z = true) : ltBytes x z = true := by
  induction x generalizing y z with
  | nil =>
      cases z with
      | nil =>
          cases y with
          | nil => simp [ltBytes] at h1
          | cons b bs => simp [ltBytes] at h2
      | cons c cs => rfl
  | cons a as ih =>
      cases y with
      | nil => simp [ltBytes] at h1
      | cons b bs =>
          cases z with
          | nil => simp [ltBytes] at h2
          | cons c cs =>
              simp only [ltBytes] at h1 h2 ⊢
              by_cases hab : a < b
              · by_cases hbc : b < c
                · rw [if_pos (by omega)]
                · rw [if_neg hbc] at h2
                  by_cases hcb : c < b
                  · rw [if_pos hcb] at h2
                    exact absurd h2 (by simp)
                  · rw [if_pos (by omega)]
              · rw [if_neg hab] at h1
                by_cases hba : b < a
                · rw [if_pos hba] at h1
                  exact absurd h1 (by simp)
                · rw [if_neg hba] at h1
                  by_cases hbc : b < c
                  · rw [if_pos (by omega)]
                  · rw [if_neg hbc] at h2
                    by_cases hcb : c < b
                    · rw [if_pos hcb] at h2
                      exact absurd h2 (by simp)
                    · rw [if_neg hcb] at h2
                      rw [if_neg (by omega), if_neg (by omega)]
                      exact ih h1 h2

theorem ltBytes_conn {x y : Bytes} (h1 : ltBytes x y = false)
    (h2 : ltBytes y x = false) : x = y := by
  induction x generalizing y with
  | nil =>
      cases y with
      | nil => rfl
      | cons b bs => simp [ltBytes] at h1
  | cons a as ih =>
      cases y with
      | nil => simp [ltBytes] at h2
      | cons b bs =>
          simp only [ltBytes] at h1 h2
          by_cases hab : a < b
          · rw [if_pos hab] at h1
            exact absurd h1 (by simp)
          · by_cases hba : b < a
            · rw [if_pos hba] at h2
              exact absurd h2 (by simp)
            · rw [if_neg hab, if_neg hba] at h1
              rw [if_neg hba, if_neg hab] at h2
              have : a = b := by omega
              rw [this, ih h1 h2]

theorem scoreBetter_irrefl (a : NodeScore) : scoreBetter a a = false := by
  simp [scoreBetter, ltBytes_irrefl]

theorem scoreBetter_asymm {a b : NodeScore} (h : scoreBetter a b = true) :
    scoreBetter b a = false := by
  unfold scoreBetter at h ⊢
  by_cases hs : a.score = b.score
  · rw [if_neg (by omega)] at h ⊢
    exact ltBytes_asymm h
  · rw [if_pos (by omega)] at h
    rw [if_pos (by omega)]
    simp only [decide_eq_true_eq] at h
    simp only [decide_eq_false_iff_not]
    omega

theorem scoreBetter_trans {a b c : NodeScore} (h1 : scoreBetter a b = true)
    (h2 : scoreBetter b c = true) : scoreBetter a c = true := by
  unfold scoreBetter at h1 h2 ⊢
  by_cases hab : a.score = b.score
  · rw [if_neg (by omega)] at h1
    by_cases hbc : b.score = c.score
    · rw [if_neg (by omega)] at h2
      rw [if_neg (by omega)]
      exact ltBytes_trans h1 h2
    · rw [if_pos (by omega)] at h2
      simp only [decide_eq_true_eq] at h2
      rw [if_pos (by omega)]
      simp only [decide_eq_true_eq]
      omega
  · rw [if_pos (by omega)] at h1
    simp only [decide_eq_true_eq] at h1
    by_cases hbc : b.score = c.score
    · rw [if_pos (by omega)]
      simp only [decide_eq_true_eq]
      omega
    · rw [if_pos (by omega)] at h2
      simp only [decide_eq_true_eq] at h2
      rw [if_pos (by omega)]
      simp only [decide_eq_true_eq]
      omega

theorem scoreBetter_conn {a b : NodeScore} (h1 : scoreBetter a b = false)
    (h2 : scoreBetter b a = false) :
    a.node.identityString = b.node.identityString := by
  unfold scoreBetter at h1 h2
  by_cases hs : a.score = b.score
  · rw [if_neg (by omega)] at h1 h2
    exact ltBytes_conn h1 h2
  · rw [if_pos (by omega)] at h1 h2
    simp only [decide_eq_false_iff_not] at h1 h2
    omega

theorem scoreConn_mono {l l' : List NodeScore} (hsub : l' ⊆ l)
    (h : ScoreConn l) : ScoreConn l' :=
  fun a ha b hb h1 h2 => h a (hsub ha) b (hsub hb) h1 h2

theorem isMax_unique {l : List NodeScore} (hconn : ScoreConn l)
    {m1 m2 : NodeScore} (h1 : IsMaxIn m1 l) (h2 : IsMaxIn m2 l) : m1 = m2 :=
  hconn m1 h1.1 m2 h2.1 (h2.2 m1 h1.1) (h1.2 m2 h2.1)

theorem isMax_of_perm {m : NodeScore} {l l' : List NodeScore}
    (hp : l.Perm l') (h : IsMaxIn m l) : IsMaxIn m l' :=
  ⟨hp.subset h.1, fun y hy => h.2 y (hp.symm.subset hy)⟩

theorem perm_insertDesc (x : NodeScore) (l : List NodeScore) :
    (insertDesc x l).Perm (x :: l) := by
  induction l with
  | nil => exact List.Perm.refl _
  | cons y ys ih =>
      unfold insertDesc
      split
      · exact List.Perm.refl _
      · exact (ih.cons y).trans (List.Perm.swap x y ys)

theorem perm_sortDesc (l : List NodeScore) : (sortDesc l).Perm l := by
  induction l with
  | nil => exact List.Perm.refl _
  | cons x xs ih =>
      exact (perm_insertDesc x (sortDesc xs)).trans (ih.cons x)

theorem sorted_insertDesc {l : List NodeScore} (x : NodeScore)
    (hs : l.Pairwise (fun a b => scoreBetter b a = false)) :
    (insertDesc x l).Pairwise (fun a b => scoreBetter b a = false) := by
  induction l with
  | nil => simp [insertDesc]
  | cons y ys ih =>
      rcases List.pairwise_cons.mp hs with ⟨hy, hys⟩
      unfold insertDesc
      split
      · next hxy =>
          refine List.pairwise_cons.mpr ⟨?_, hs⟩
          intro z hz
          rcases List.mem_cons.mp hz with rfl | hz2
          · exact scoreBetter_asymm hxy
          · by_cases hzx : scoreBetter z x = true
            · have := scoreBetter_trans hzx hxy
              rw [hy z hz2] at this
              exact absurd this (by simp)
            · simpa using hzx
      · next hxy =>
          refine List.pairwise_cons.mpr ⟨?_, ih hys⟩
          intro z hz
          have hz2 := (perm_insertDesc x ys).subset hz
          rcases List.mem_cons.mp hz2 with rfl | hz3
          · simpa using hxy
          · exact hy z hz3

theorem sorted_sortDesc (l : List NodeScore) :
    (sortDesc l).Pairwise (fun a b => scoreBetter b a = false) := by
  induction l with
  | nil => simp [sortDesc]
  | cons x xs ih => exact sorted_insertDesc x ih

theorem isMax_head_sorted {m : NodeScore} {rest : List NodeScore}
    (h : (m :: rest).Pairwise (fun a b => scoreBetter b a = false)) :
    IsMaxIn m (m :: rest) := by
  rcases List.pairwise_cons.mp h with ⟨h1, _⟩
  refine ⟨List.mem_cons_self m rest, ?_⟩
  intro y hy
  rcases List.mem_cons.mp hy with rfl | hy2
  · exact scoreBetter_irrefl y
  · exact h1 y hy2

theorem scanBest_cons (x s : NodeScore) (ls : List NodeScore) :
    scanBest x (s :: ls) = scanBest (if scoreBetter s x then s else x) ls :=
  rfl

theorem scanBest_isMax {l : List NodeScore} {x : NodeScore}
    (hconn : ScoreConn (x :: l)) : IsMaxIn (scanBest x l) (x :: l) := by
  induction l generalizing x with
  | nil =>
      refine ⟨List.mem_cons_self x [], ?_⟩
      intro y hy
      rcases List.mem_cons.mp hy with rfl | hy2
      · exact scoreBetter_irrefl y
      · simp at hy2
  | cons s ls ih =>
      by_cases hb : scoreBetter s x = true
      · -- the scan replaces the accumulator by s
        have hstep : scanBest x (s :: ls) = scanBest s ls := by
          rw [scanBest_cons, if_pos hb]
        rw [hstep]
        have hsub : s :: ls ⊆ x :: s :: ls :=
          fun a ha => List.mem_cons_of_mem x ha
        obtain ⟨hmem, hmax⟩ := ih (scoreConn_mono hsub hconn)
        refine ⟨List.mem_cons_of_mem x hmem, ?_⟩
        intro y hy
        rcases List.mem_cons.mp hy with rfl | hy2
        · by_cases hxm : scoreBetter y (scanBest s ls) = true
          · have h2 := scoreBetter_trans hb hxm
            rw [hmax s (List.mem_cons_self s ls)] at h2
            exact absurd h2 (by simp)
          · simpa using hxm
        · exact hmax y hy2
      · -- the scan keeps x; s cannot beat the result either
        have hb2 : scoreBetter s x = false := by simpa using hb
        have hstep : scanBest x (s :: ls) = scanBest x ls := by
          rw [scanBest_cons, if_neg (by simp [hb2])]
        rw [hstep]
        have hsub : x :: ls ⊆ x :: s :: ls := by
          intro a ha
          rcases List.mem_cons.mp ha with rfl | ha2
          · exact List.mem_cons_self _ _
          · exact List.mem_cons_of_mem _ (List.mem_cons_of_mem _ ha2)
        obtain ⟨hmem, hmax⟩ := ih (scoreConn_mono hsub hconn)
        have hsm_s : scoreBetter s (scanBest x ls) = false := by
          by_cases hsm : scoreBetter s (scanBest x ls) = true
          · by_cases hmx : scanBest x ls = x
            · rw [hmx] at hsm
              rw [hsm] at hb2
              exact absurd hb2 (by simp)
            · by_cases hmx2 : scoreBetter (scanBest x ls) x = true
              · have h3 := scoreBetter_trans hsm hmx2
                rw [h3] at hb2
                exact absurd hb2 (by simp)
              · have hxm := hmax x (List.mem_cons_self x ls)
                have heq := hconn (scanBest x ls) (hsub hmem) x
                  (List.mem_cons_self x _) (by simpa using hmx2) hxm
                exact absurd heq hmx
          · simpa using hsm
        refine ⟨hsub hmem, ?_⟩
        intro y hy
        rcases List.mem_cons.mp hy with rfl | hy2
        · exact hmax y (List.mem_cons_self y ls)
        · rcases List.mem_cons.mp hy2 with rfl | hy3
          · exact hsm_s
          · exact hmax y (List.mem_cons_of_mem x hy3)

theorem scan2_aux (rest : List NodeScore) :
    ∀ (processed : List NodeScore) (fst : NodeScore) (snd : Option NodeScore),
    (processed ++ rest).Nodup →
    IsMaxIn fst processed →
    (snd = none → processed = [fst]) →
    (∀ sec, snd = some sec → sec ∈ processed.erase fst ∧
      ∀ y ∈ processed.erase fst, scoreBetter y sec = false) →
    IsMaxIn (rest.foldl scan2Step (fst, snd)).1 (processed ++ rest) ∧
    ((rest.foldl scan2Step (fst, snd)).2 = none →
      processed ++ rest = [(rest.foldl scan2Step (fst, snd)).1]) ∧
    (∀ sec, (rest.foldl scan2Step (fst, snd)).2 = some sec →
      sec ∈ (processed ++ rest).erase (rest.foldl scan2Step (fst, snd)).1 ∧
      ∀ y ∈ (processed ++ rest).erase (rest.foldl scan2Step (fst, snd)).1,
        scoreBetter y sec = false) := by
  induction rest with
  | nil =>
      intro processed fst snd hnodup hmax hnone hsec
      simp only [List.foldl_nil, List.append_nil]
      exact ⟨hmax, hnone, hsec⟩
  | cons s rs ih =>
      intro processed fst snd hnodup hmax hnone hsec
      have hsnp : s ∉ processed := by
        intro hs
        rcases List.nodup_append.mp hnodup with ⟨_, _, hdisj⟩
        exact hdisj hs (List.mem_cons_self s rs)
      have hassoc : processed ++ s :: rs = (processed ++ [s]) ++ rs := by simp
      have hnodup2 : ((processed ++ [s]) ++ rs).Nodup := by
        rw [← hassoc]; exact hnodup
      rw [List.foldl_cons, hassoc]
      by_cases hb : scoreBetter s fst = true
      · have hstep : scan2Step (fst, snd) s = (s, some fst) := by
          simp [scan2Step, hb]
        rw [hstep]
        refine ih (processed ++ [s]) s (some fst) hnodup2 ?_ ?_ ?_
        · refine ⟨List.mem_append_right _ (List.mem_singleton.mpr rfl), ?_⟩
          intro y hy
          rcases List.mem_append.mp hy with hy1 | hy2
          · by_cases hys : scoreBetter y s = true
            · have h2 := scoreBetter_trans hys hb
              rw [hmax.2 y hy1] at h2
              exact absurd h2 (by simp)
            · simpa using hys
          · rw [List.mem_singleton.mp hy2]
            exact scoreBetter_irrefl s
        · intro h; exact absurd h (by simp)
        · intro sec h
          have hsf : sec = fst := by simpa using h.symm
          subst hsf
          rw [List.erase_append_right _ hsnp, List.erase_cons_head,
            List.append_nil]
          exact ⟨hmax.1, hmax.2⟩
      · have hb2 : scoreBetter s fst = false := by simpa using hb
        cases snd with
        | none =>
            have hpro : processed = [fst] := hnone rfl
            subst hpro
            have hstep : scan2Step (fst, none) s = (fst, some s) := by
              simp [scan2Step, hb2]
            rw [hstep]
            refine ih ([fst] ++ [s]) fst (some s) hnodup2 ?_ ?_ ?_
            · refine ⟨List.mem_append_left _ (List.mem_singleton.mpr rfl), ?_⟩
              intro y hy
              rcases List.mem_append.mp hy with hy1 | hy2
              · rw [List.mem_singleton.mp hy1]
                exact scoreBetter_irrefl fst
              · rw [List.mem_singleton.mp hy2]
                exact hb2
            · intro h; exact absurd h (by simp)
            · intro sec h
              have hss : sec = s := by simpa using h.symm
              subst hss
              rw [show ([fst] ++ [sec]).erase fst = [sec] by
                simp [List.erase_cons_head]]
              refine ⟨List.mem_singleton.mpr rfl, ?_⟩
              intro y hy
              rw [List.mem_singleton.mp hy]
              exact scoreBetter_irrefl sec
        | some sec0 =>
            obtain ⟨hsecmem, hsecmax⟩ := hsec sec0 rfl
            have hmax2 : IsMaxIn fst (processed ++ [s]) := by
              refine ⟨List.mem_append_left _ hmax.1, ?_⟩
              intro y hy
              rcases List.mem_append.mp hy with hy1 | hy2
              · exact hmax.2 y hy1
              · rw [List.mem_singleton.mp hy2]
                exact hb2
            have herase : (processed ++ [s]).erase fst =
                processed.erase fst ++ [s] :=
              List.erase_append_left _ hmax.1
            by_cases hc : scoreBetter s sec0 = true
            · have hstep : scan2Step (fst, some sec0) s = (fst, some s) := by
                simp [scan2Step, hb2, hc]
              rw [hstep]
              refine ih (processed ++ [s]) fst (some s) hnodup2 hmax2 ?_ ?_
              · intro h; exact absurd h (by simp)
              · intro sec h
                have hss : sec = s := by simpa using h.symm
                subst hss
                rw [herase]
                refine ⟨List.mem_append_right _ (List.mem_singleton.mpr rfl), ?_⟩
                intro y hy
                rcases List.mem_append.mp hy with hy1 | hy2
                · by_cases hys : scoreBetter y sec = true
                  · have h2 := scoreBetter_trans hys hc
                    rw [hsecmax y hy1] at h2
                    exact absurd h2 (by simp)
                  · simpa using hys
                · rw [List.mem_singleton.mp hy2]
                  exact scoreBetter_irrefl sec
            · have hc2 : scoreBetter s sec0 = false := by simpa using hc
              have hstep : scan2Step (fst, some sec0) s = (fst, some sec0) := by
                simp [scan2Step, hb2, hc2]
              rw [hstep]
              refine ih (processed ++ [s]) fst (some sec0) hnodup2 hmax2 ?_ ?_
              · intro h; exact absurd h (by simp)
              · intro sec h
                have hss : sec = sec0 := by simpa using h.symm
                subst hss
                rw [herase]
                refine ⟨List.mem_append_left _ hsecmem, ?_⟩
                intro y hy
                rcases List.mem_append.mp hy with hy1 | hy2
                · exact hsecmax y hy1
                · rw [List.mem_singleton.mp hy2]
                  exact hc2

theorem scan2_spec {x : NodeScore} {l : List NodeScore}
    (hnodup : (x :: l).Nodup) :
    IsMaxIn (scan2 x l).1 (x :: l) ∧
    ((scan2 x l).2 = none → x :: l = [(scan2 x l).1]) ∧
    (∀ sec, (scan2 x l).2 = some sec →
      sec ∈ (x :: l).erase (scan2 x l).1 ∧
      ∀ y ∈ (x :: l).erase (scan2 x l).1, scoreBetter y sec = false) := by
  have hmax0 : IsMaxIn x [x] := by
    refine ⟨List.mem_singleton.mpr rfl, ?_⟩
    intro y hy
    rw [List.mem_singleton.mp hy]
    exact scoreBetter_irrefl x
  have h := scan2_aux l [x] x none (by simpa using hnodup) hmax0
    (fun _ => rfl) (fun sec h => absurd h (by simp))
  simpa [scan2] using h

theorem GetNodes_one (hash : Bytes → Nat) (key : Bytes) (n0 : Node)
    (rest : List Node) :
    GetNodes hash (n0 :: rest) key 1 =
      [(scanBest (computeScore hash key n0)
        (rest.map (computeScore hash key))).node] := rfl

theorem GetNodes_two (hash : Bytes → Nat) (key : Bytes) (n0 : Node)
    (rest : List Node) :
    GetNodes hash (n0 :: rest) key 2 =
      (match (scan2 (computeScore hash key n0)
          (rest.map (computeScore hash key))).2 with
        | none =>
            [(scan2 (computeScore hash key n0)
              (rest.map (computeScore hash key))).1.node]
        | some sec =>
            [(scan2 (computeScore hash key n0)
              (rest.map (computeScore hash key))).1.node, sec.node]) := rfl

theorem GetNodes_big (hash : Bytes → Nat) (key : Bytes) (n0 : Node)
    (rest : List Node) (k : Nat) (h : 3 ≤ k) :
    GetNodes hash (n0 :: rest) key k =
      ((sortDesc ((n0 :: rest).map (computeScore hash key))).take
        (min k (n0 :: rest).length)).map NodeScore.node := by
  simp only [GetNodes]
  rw [if_neg (by omega), if_neg (by omega), if_neg (by omega)]

theorem getNodes_rank (hash : Bytes → Nat) (key : Bytes) (nodes : List Node)
    (k : Nat) (hnod : (nodes.map Node.identityString).Nodup) (hk : 0 < k) :
    GetNodes hash nodes key k =
      ((sortDesc (nodes.map (computeScore hash key))).take
        (min k nodes.length)).map NodeScore.node := by
  cases nodes with
  | nil => simp [GetNodes, sortDesc]
  | cons n0 rest =>
      have hmapnodup :
          (((n0 :: rest).map (computeScore hash key)).map
            (fun sc => sc.node.identityString)).Nodup := by
        rw [List.map_map]
        exact hnod
      have hconn : ScoreConn ((n0 :: rest).map (computeScore hash key)) := by
        intro a ha b hb h1 h2
        exact List.inj_on_of_nodup_map hmapnodup ha hb (scoreBetter_conn h1 h2)
      have hnodupL : ((n0 :: rest).map (computeScore hash key)).Nodup :=
        List.Nodup.of_map _ hmapnodup
      have hperm := perm_sortDesc ((n0 :: rest).map (computeScore hash key))
      have hsorted := sorted_sortDesc ((n0 :: rest).map (computeScore hash key))
      have hlen : (sortDesc ((n0 :: rest).map (computeScore hash key))).length
          = rest.length + 1 := by
        rw [hperm.length_eq]
        simp
      obtain ⟨m, S1, hS⟩ : ∃ m S1,
          sortDesc ((n0 :: rest).map (computeScore hash key)) = m :: S1 := by
        cases hS : sortDesc ((n0 :: rest).map (computeScore hash key)) with
        | nil => rw [hS] at hlen; simp at hlen
        | cons m S1 => exact ⟨m, S1, rfl⟩
      have hmmax : IsMaxIn m ((n0 :: rest).map (computeScore hash key)) := by
        refine isMax_of_perm (hS ▸ hperm) (isMax_head_sorted ?_)
        rw [← hS]
        exact hsorted
      have hLcons : (n0 :: rest).map (computeScore hash key) =
          computeScore hash key n0 :: rest.map (computeScore hash key) :=
        List.map_cons _ _ _
      by_cases hk1 : k = 1
      · -- k = 1: the linear scan computes the head of the ranking
        subst hk1
        have hscan : IsMaxIn
            (scanBest (computeScore hash key n0)
              (rest.map (computeScore hash key)))
            ((n0 :: rest).map (computeScore hash key)) := by
          rw [hLcons]
          exact scanBest_isMax (by rw [← hLcons]; exact hconn)
        have heq : scanBest (computeScore hash key n0)
            (rest.map (computeScore hash key)) = m :=
          isMax_unique hconn hscan hmmax
        have hmin : min 1 (n0 :: rest).length = 1 := by
          rw [List.length_cons]
          omega
        rw [GetNodes_one, heq, hmin, hS]
        rfl
      by_cases hk2 : k = 2
      · -- k = 2: the two-candidate pass computes the first two of the ranking
        subst hk2
        have hnodup2 : (computeScore hash key n0 ::
            rest.map (computeScore hash key)).Nodup := by
          rw [← hLcons]
          exact hnodupL
        obtain ⟨hfmax, hnonec, hsecc⟩ := scan2_spec hnodup2
        have hfmaxL : IsMaxIn (scan2 (computeScore hash key n0)
            (rest.map (computeScore hash key))).1
            ((n0 :: rest).map (computeScore hash key)) := by
          rw [hLcons]
          exact hfmax
        have hfst : (scan2 (computeScore hash key n0)
            (rest.map (computeScore hash key))).1 = m :=
          isMax_unique hconn hfmaxL hmmax
        rw [GetNodes_two]
        cases h2 : (scan2 (computeScore hash key n0)
            (rest.map (computeScore hash key))).2 with
        | none =>
            have hsingle := hnonec h2
            have hrest : rest = [] := by
              cases rest with
              | nil => rfl
              | cons a l => simp at hsingle
            subst hrest
            have hS1 : S1 = [] := by
              have h := hlen
              rw [hS] at h
              simpa using h
            subst hS1
            have hm : computeScore hash key n0 = m := by
              have hp := hperm
              rw [hS, hLcons] at hp
              simpa using (List.perm_singleton.mp hp).symm
            have hfn : (scan2 (computeScore hash key n0)
                (List.map (computeScore hash key) [])).1 =
                computeScore hash key n0 := by
              have h := congrArg List.head? hsingle
              simpa using h.symm
            rw [hfn, hm, hS]
            rfl
        | some sec =>
            obtain ⟨hsecmem, hsecmax⟩ := hsecc sec h2
            have herase : (computeScore hash key n0 ::
                rest.map (computeScore hash key)).erase
                  (scan2 (computeScore hash key n0)
                    (rest.map (computeScore hash key))).1 =
                ((n0 :: rest).map (computeScore hash key)).erase m := by
              rw [hfst, hLcons]
            rw [herase] at hsecmem hsecmax
            have hS1perm : S1.Perm
                (((n0 :: rest).map (computeScore hash key)).erase m) := by
              have hp : (m :: S1).Perm
                  ((n0 :: rest).map (computeScore hash key)) := hS ▸ hperm
              exact (List.cons_perm_iff_perm_erase.mp hp).2
            obtain ⟨m2, S2, hS1⟩ : ∃ m2 S2, S1 = m2 :: S2 := by
              cases hS1c : S1 with
              | nil =>
                  rw [hS1c] at hS1perm
                  rw [hS1perm.symm.eq_nil] at hsecmem
                  simp at hsecmem
              | cons m2 S2 => exact ⟨m2, S2, rfl⟩
            have hm2max : IsMaxIn m2
                (((n0 :: rest).map (computeScore hash key)).erase m) := by
              refine isMax_of_perm (hS1 ▸ hS1perm) (isMax_head_sorted ?_)
              have h := hsorted
              rw [hS, hS1] at h
              exact (List.pairwise_cons.mp h).2
            have hconn2 : ScoreConn
                (((n0 :: rest).map (computeScore hash key)).erase m) :=
              scoreConn_mono (List.erase_subset _ _) hconn
            have hsec2 : sec = m2 :=
              isMax_unique hconn2 ⟨hsecmem, hsecmax⟩ hm2max
            have hpos : 0 < ((((n0 :: rest).map
                (computeScore hash key)).erase m)).length :=
              List.length_pos.mpr (List.ne_nil_of_mem hsecmem)
            have hlen2 : ((((n0 :: rest).map
                (computeScore hash key)).erase m)).length =
                (((n0 :: rest).map (computeScore hash key))).length - 1 :=
              List.length_erase_of_mem hmmax.1
            have hlen3 : (((n0 :: rest).map
                (computeScore hash key))).length = rest.length + 1 := by
              simp
            have hminlen : min 2 (n0 :: rest).length = 2 := by
              rw [List.length_cons]
              omega
            rw [hminlen, hS, hS1, hfst, hsec2]
            rfl
      · have hk3 : 3 ≤ k := by omega
        exact GetNodes_big hash key n0 rest k hk3

/-- C8: for every key, every hash function, every node list with
pairwise-distinct identity strings and all 0 < k1 < k2, GetNodes(key, k1) is
the first min(k1, |nodes|) elements of GetNodes(key, k2); in particular the
k = 1 and k = 2 fast paths agree with the general sort path, since every
GetNodes result is a front of the full descending ranking. -/
theorem getNodes_front_agreement (hash : Bytes → Nat) (nodes : List Node)
    (key : Bytes) (k1 k2 : Nat)
    (hnod : (nodes.map Node.identityString).Nodup)
    (h1 : 0 < k1) (h12 : k1 < k2) :
    GetNodes hash nodes key k1 =
      (GetNodes hash nodes key k2).take (min k1 nodes.length) := by
  rw [getNodes_rank hash key nodes k1 hnod h1,
      getNodes_rank hash key nodes k2 hnod (by omega)]
  rw [← List.map_take, List.take_take]
  congr 2
  omega

/-- C8 witness: on three concrete nodes with distinct identity strings, the
k = 1 fast path agrees with the front of the k = 2 fast path. -/
theorem getNodes_front_agreement_holds :
    GetNodes hashSum nodesABC [117] 1 =
      (GetNodes hashSum nodesABC [117] 2).take (min 1 nodesABC.length) :=
  getNodes_front_agreement hashSum nodesABC [117] 1 2 (by decide)
    (by decide) (by decide)
